import Mathlib

/-!
Shallow embedding of the crawl-and-index subsystem of `src/server.js`
(TempWebsite-Backend): the document store (`knowledgeBase : Map`), the
recursive crawler (`scrapeSectionRecursively`, `scrapeEpturaKnowledge`)
and the substring search (`searchKnowledgeBase`).

Modelling conventions:
  - Strings are Lean `String`s viewed as their `List Char`; JS
    `substring`, `trim`, `includes`, `startsWith`, `toLowerCase` are
    embedded character-wise.
  - The network (`axios.get`) plus the HTML parse (`cheerio.load`) are
    abstracted into an oracle `FetchFn : String → Option Page`, where
    `Page` carries exactly the three projections the code reads:
    the concatenated text of the `<title>` selector, the text of
    `<body>`, and the anchor list (`href` attribute and element text) in
    document order.  `none` models a fetch failure caught by the
    `try/catch` in `scrapeSectionRecursively` (the only failure point:
    `cheerio.load` itself does not throw on malformed markup).
  - The `Map` `knowledgeBase` is an insertion-ordered association list;
    `Map.set` on an existing key replaces the value in place, otherwise
    appends, exactly as JS `Map` iteration order behaves.
  - The pacing delays (`setTimeout`) and `lastScrapeTime` are not part
    of any claim and are not modelled.
  - Each call of the crawler logs a `FetchEvent` (url, depth) at the
    moment the fetch is attempted, so that "URL u is fetched during the
    pass at depth d" is the membership `(u, d) ∈ events`.
-/

namespace Eptura

/-- A stored document: the value type of the `knowledgeBase` map
(`{ title, content, url }` in `server.js` lines 61-65). -/
structure Doc where
  title : String
  content : String
  url : String
deriving DecidableEq

/-- A seed section or a discovered link: a `{ name, url }` pair
(`KNOWLEDGE_SECTIONS` entries, and the objects pushed into `links`). -/
structure SeedSection where
  name : String
  url : String
deriving DecidableEq

/-- One anchor element as read by the `$('a').each` loop: its `href`
attribute (absent anchors have `href = none`) and its text. -/
structure Anchor where
  href : Option String
  text : String
deriving DecidableEq

/-- The parsed page: the projections of the cheerio document that
`scrapeSectionRecursively` reads — `$('title').text()`,
`$('body').text()`, and the anchors in document order. -/
structure Page where
  titleText : String
  bodyText : String
  anchors : List Anchor
deriving DecidableEq

/-- The fetch-and-parse oracle: `none` models a fetch failure
(timeout, network error, non-success status). It is fixed for the
duration of one pass. -/
abbrev FetchFn := String → Option Page

/-- A fetch attempt logged by the instrumented crawler: URL and depth. -/
abbrev FetchEvent := String × Nat

/-- The document store: insertion-ordered association list modelling the
JS `Map` `knowledgeBase`. -/
abbrev KB := List (String × Doc)

/-- `knowledgeBase.has(u)`. -/
def kbHas (kb : KB) (u : String) : Bool :=
  kb.any (fun e => e.1 == u)

/-- `knowledgeBase.get(u)` (lookup of the first entry with key `u`). -/
def kbGet (kb : KB) (u : String) : Option Doc :=
  (kb.find? (fun e => e.1 == u)).map Prod.snd

/-- `knowledgeBase.set(u, d)`: JS `Map.set` keeps the original position
of an existing key and appends a new key at the end. -/
def kbSet (kb : KB) (u : String) (d : Doc) : KB :=
  if kbHas kb u then kb.map (fun e => if e.1 == u then (u, d) else e)
  else kb ++ [(u, d)]

/-! ### JS string operations -/

/-- One step of `.replace(/\s+/g, ' ')`: every maximal run of whitespace
characters becomes a single space. -/
def collapseWsAux : List Char → List Char
  | [] => []
  | [c] => if c.isWhitespace then [' '] else [c]
  | c1 :: c2 :: rest =>
    if c1.isWhitespace then
      if c2.isWhitespace then collapseWsAux (c2 :: rest)
      else ' ' :: collapseWsAux (c2 :: rest)
    else c1 :: collapseWsAux (c2 :: rest)

/-- Remove trailing whitespace (the right half of JS `.trim()`). -/
def dropTrailingWs : List Char → List Char
  | [] => []
  | c :: rest =>
    let r := dropTrailingWs rest
    if r.isEmpty && c.isWhitespace then [] else c :: r

/-- JS `.trim()`: strip leading and trailing whitespace. -/
def jsTrim (s : String) : String :=
  ⟨dropTrailingWs (s.data.dropWhile Char.isWhitespace)⟩

/-- JS `.replace(/\s+/g, ' ')` on a whole string. -/
def jsCollapseWs (s : String) : String :=
  ⟨collapseWsAux s.data⟩

/-- JS `.substring(0, n)`. -/
def jsSubstringTo (s : String) (n : Nat) : String :=
  ⟨s.data.take n⟩

/-- `$('body').text().replace(/\s+/g, ' ').trim().substring(0, 1000)`
(line 60 of `server.js`). -/
def extractContent (body : String) : String :=
  jsSubstringTo (jsTrim (jsCollapseWs body)) 1000

/-- JS `hay.includes(needle)` on char lists: `needle` occurs as a
contiguous substring of `hay`. -/
def listContains (needle : List Char) : List Char → Bool
  | [] => needle.isEmpty
  | c :: rest => needle.isPrefixOf (c :: rest) || listContains needle rest

/-- JS `hay.includes(needle)`. -/
def jsIncludes (hay needle : String) : Bool :=
  listContains needle.data hay.data

/-- JS `s.toLowerCase()`, character-wise. -/
def jsToLower (s : String) : String :=
  ⟨s.data.map Char.toLower⟩

/-- JS `s.startsWith(pre)`. -/
def jsStartsWith (s pre : String) : Bool :=
  pre.data.isPrefixOf s.data

/-! ### The crawler -/

/-- The fixed crawl-domain filter used on anchor `href`s (line 72). -/
def crawlDomain : String := "https://knowledge.eptura.com"

/-- The document written on a successful fetch (lines 59-65):
`pageTitle = $('title').text() || section.name` (JS `||`: the empty
string is falsy) and the normalized, truncated body text. -/
def mkDoc (sec : SeedSection) (page : Page) : Doc :=
  { title := if page.titleText = "" then sec.name else page.titleText
    content := extractContent page.bodyText
    url := sec.url }

/-- The body of the `$('a').each` callback (lines 68-77): an anchor
contributes a link when its `href` is present, truthy (non-empty),
starts with the crawl domain, and is not already a key of
`knowledgeBase`; the link's name is the anchor text. -/
def linkOfAnchor (kb : KB) (a : Anchor) : Option SeedSection :=
  match a.href with
  | none => none
  | some href =>
    if href != "" && jsStartsWith href crawlDomain && !kbHas kb href
    then some ⟨a.text, href⟩ else none

/-- The `$('a').each` link-collection loop (lines 67-77), in document
order. -/
def collectLinks (kb : KB) (page : Page) : List SeedSection :=
  page.anchors.filterMap (linkOfAnchor kb)

/-- The `for (const link of links)` loop: run `f` on each link in order,
threading the store and concatenating the fetch logs. -/
def scrapeList (f : SeedSection → KB → KB × List FetchEvent) :
    List SeedSection → KB → KB × List FetchEvent
  | [], kb => (kb, [])
  | l :: rest, kb =>
    let r1 := f l kb
    let r2 := scrapeList f rest r1.1
    (r2.1, r1.2 ++ r2.2)

/-- The body of `scrapeSectionRecursively`, made structural on the gas
`maxDepth + 1 - depth` (the JS guard `if (depth > maxDepth) return` is
exactly `gas = 0`).  On gas `g+1` (depth within the bound) the fetch is
attempted and logged; on failure the `catch` abandons the subtree with
the store untouched; on success the document is written, the links are
collected against the updated store, and each link is scraped at depth
`depth + 1` (gas `g`). -/
def scrapeGo (fetch : FetchFn) : Nat → SeedSection → Nat → KB → KB × List FetchEvent
  | 0, _, _, kb => (kb, [])
  | g + 1, sec, depth, kb =>
    match fetch sec.url with
    | none => (kb, [(sec.url, depth)])
    | some page =>
      let kb1 := kbSet kb sec.url (mkDoc sec page)
      let r := scrapeList (fun l kbx => scrapeGo fetch g l (depth + 1) kbx)
        (collectLinks kb1 page) kb1
      (r.1, (sec.url, depth) :: r.2)

/-- `scrapeSectionRecursively(section, depth, maxDepth)` (lines 54-86),
instrumented to return the updated store and the list of fetch attempts
`(url, depth)` in order. -/
def scrapeSectionRecursively (fetch : FetchFn) (sec : SeedSection)
    (depth maxDepth : Nat) (kb : KB) : KB × List FetchEvent :=
  scrapeGo fetch (maxDepth + 1 - depth) sec depth kb

/-- The configured seed sections (lines 14-22). -/
def KNOWLEDGE_SECTIONS : List SeedSection :=
  [⟨"Condeco", "https://knowledge.eptura.com/condeco"⟩,
   ⟨"Proxyclick", "https://knowledge.eptura.com/proxyclick"⟩,
   ⟨"Serraview", "https://knowledge.eptura.com/serraview"⟩,
   ⟨"iOFFICE", "https://knowledge.eptura.com/ioffice"⟩,
   ⟨"ManagerPlus", "https://knowledge.eptura.com/managerplus"⟩,
   ⟨"SpaceIQ", "https://knowledge.eptura.com/spaceiq"⟩,
   ⟨"Archibus", "https://knowledge.eptura.com/archibus"⟩]

/-- One full crawl pass over a list of seed sections, each scraped with
`depth = 0, maxDepth = 1` (lines 91-94). -/
def crawlPass (fetch : FetchFn) (sections : List SeedSection) (kb : KB) :
    KB × List FetchEvent :=
  scrapeList (fun sec kbx => scrapeSectionRecursively fetch sec 0 1 kbx) sections kb

/-- `scrapeEpturaKnowledge()` (lines 88-100): one full pass over
`KNOWLEDGE_SECTIONS`. -/
def scrapeEpturaKnowledge (fetch : FetchFn) (kb : KB) : KB × List FetchEvent :=
  crawlPass fetch KNOWLEDGE_SECTIONS kb

/-! ### The search index -/

/-- One search result (`{ title, excerpt, url }`, lines 121-125). -/
structure SearchResult where
  title : String
  excerpt : String
  url : String
deriving DecidableEq

/-- The result object pushed for a matching document:
`excerpt = doc.content.substring(0, 200) + '...'`. -/
def mkSearchResult (d : Doc) : SearchResult :=
  { title := d.title
    excerpt := jsSubstringTo d.content 200 ++ "..."
    url := d.url }

/-- The match test of lines 117-120: the lowercased query is a substring
of the lowercased title or of the lowercased content. -/
def matchesQuery (queryLower : String) (d : Doc) : Bool :=
  jsIncludes (jsToLower d.title) queryLower || jsIncludes (jsToLower d.content) queryLower

/-- The `for (const [url, doc] of knowledgeBase.entries())` loop of
`searchKnowledgeBase`: push a result on match, then break as soon as
`results.length >= limit` (the check runs every iteration, after the
conditional push). -/
def searchLoop (queryLower : String) (limit : Int) :
    List (String × Doc) → List SearchResult → List SearchResult
  | [], acc => acc
  | e :: rest, acc =>
    let acc2 := if matchesQuery queryLower e.2 then acc ++ [mkSearchResult e.2] else acc
    if limit ≤ (acc2.length : Int) then acc2
    else searchLoop queryLower limit rest acc2

/-- `searchKnowledgeBase(query, limit)` (lines 113-130).  The JS `limit`
is a number that callers may in principle pass as zero or negative, so
it is modelled as an `Int`. -/
def searchKnowledgeBase (kb : KB) (query : String) (limit : Int) : List SearchResult :=
  searchLoop (jsToLower query) limit kb []

/-! ### Content well-formedness predicates -/

/-- No two consecutive whitespace characters. -/
def noDoubleWs : List Char → Bool
  | c1 :: c2 :: rest => (!(c1.isWhitespace && c2.isWhitespace)) && noDoubleWs (c2 :: rest)
  | _ => true

/-- The first character, if any, is not whitespace. -/
def leadingWsFree (l : List Char) : Bool :=
  match l with
  | [] => true
  | c :: _ => !c.isWhitespace

/-- The last character, if any, is not whitespace. -/
def trailingWsFree (l : List Char) : Bool :=
  match l.getLast? with
  | none => true
  | some c => !c.isWhitespace

/-- The shape of every content string ever written by the crawler:
bounded length, no whitespace runs, no leading whitespace. -/
def contentOk (c : String) : Prop :=
  c.data.length ≤ 1000 ∧ noDoubleWs c.data = true ∧ leadingWsFree c.data = true

/-- What `searchKnowledgeBase` computes when `limit <= 0`: the loop
breaks at the end of the very first iteration, so only the first stored
entry is ever examined. -/
def firstEntryResult (kb : KB) (q : String) : List SearchResult :=
  match kb with
  | [] => []
  | e :: _ => if matchesQuery (jsToLower q) e.2 then [mkSearchResult e.2] else []

/-! ### Concrete fixtures used in counterexamples and witnesses -/

/-- The first seed section. -/
def secCondeco : SeedSection := ⟨"Condeco", "https://knowledge.eptura.com/condeco"⟩

/-- The first seed section's URL. -/
def condecoUrl : String := "https://knowledge.eptura.com/condeco"

/-- A same-domain URL that is not a seed URL. -/
def linkUrlX : String := "https://knowledge.eptura.com/condeco/teams"

/-- A fetch oracle on which every fetch fails. -/
def fetchFailAll : FetchFn := fun _ => none

/-- A page carrying the same same-domain link twice. -/
def pageDupLinks : Page :=
  ⟨"Condeco Home", "Book a desk",
   [⟨some linkUrlX, "Teams"⟩, ⟨some linkUrlX, "Teams"⟩]⟩

/-- A page with no outbound links. -/
def pageLeaf : Page := ⟨"Teams", "Teams rooms", []⟩

/-- A fetch oracle: the Condeco seed yields `pageDupLinks`, the
duplicated link target yields `pageLeaf`, everything else fails. -/
def fetchDup : FetchFn := fun u =>
  if u == condecoUrl then some pageDupLinks
  else if u == linkUrlX then some pageLeaf
  else none

/-- A page with a short body and no links. -/
def pageShort : Page := ⟨"Condeco Home", "Book a desk", []⟩

/-- A fetch oracle: only the Condeco seed succeeds, with `pageShort`. -/
def fetchShort : FetchFn := fun u => if u == condecoUrl then some pageShort else none

/-- The document `pageShort` produces for the Condeco seed. -/
def docShort : Doc := ⟨"Condeco Home", "Book a desk", condecoUrl⟩

/-- A 1001-character body: 999 `a`s, one space, one `b`.  Collapsing and
trimming leave it unchanged; truncation to 1000 characters then cuts
right after the space. -/
def longBody : String := ⟨List.replicate 999 'a' ++ [' ', 'b']⟩

/-- A page whose body is `longBody`, with no links. -/
def pageLong : Page := ⟨"Condeco Home", longBody, []⟩

/-- A fetch oracle: only the Condeco seed succeeds, with `pageLong`. -/
def fetchLong : FetchFn := fun u =>
  if u == condecoUrl then some pageLong else none

/-- A page used to exercise the link filter: one same-domain link, one
anchor without `href`, one foreign link. -/
def pageMixedAnchors : Page :=
  ⟨"T", "b",
   [⟨some linkUrlX, "Teams"⟩, ⟨none, "x"⟩, ⟨some "https://other.example.com/a", "y"⟩]⟩

/-- A pre-existing stored document. -/
def docA : Doc := ⟨"Condeco", "old content", condecoUrl⟩

/-- A document whose content contains the letter `b`. -/
def docMatchB : Doc := ⟨"T", "abc", "u1"⟩

/-- A document matching neither `findme` nor anything similar. -/
def docNoMatch : Doc := ⟨"Alpha", "xyz", "u1"⟩

/-- A document whose content contains `findme`. -/
def docYesMatch : Doc := ⟨"Beta", "findme here", "u2"⟩

/-- A document with a unique title, stored under its own URL. -/
def docU : Doc := ⟨"UniqueTitle", "body text", "https://knowledge.eptura.com/u"⟩

/-! ### Store lemmas -/

theorem kbHas_nil (u : String) : kbHas [] u = false := rfl

theorem kbHas_cons (e : String × Doc) (rest : KB) (u : String) :
    kbHas (e :: rest) u = ((e.1 == u) || kbHas rest u) := by
  simp [kbHas]

theorem kbGet_nil (u : String) : kbGet [] u = none := rfl

theorem kbGet_cons (e : String × Doc) (rest : KB) (u : String) :
    kbGet (e :: rest) u = if e.1 == u then some e.2 else kbGet rest u := by
  by_cases h : (e.1 == u) = true
  · rw [if_pos h, kbGet, @List.find?_cons_of_pos _ (fun x => x.1 == u) e rest h]
    rfl
  · rw [if_neg h, kbGet, @List.find?_cons_of_neg _ (fun x => x.1 == u) e rest h]
    rfl

theorem kbHas_eq_isSome_kbGet (kb : KB) (u : String) :
    kbHas kb u = (kbGet kb u).isSome := by
  induction kb with
  | nil => rfl
  | cons e rest ih =>
    rw [kbHas_cons, kbGet_cons]
    by_cases h : (e.1 == u) = true
    · simp [h]
    · simp only [Bool.not_eq_true] at h
      simp [h, ih]

theorem kbGet_map_replace_self (kb : KB) (u : String) (d : Doc)
    (h : kbHas kb u = true) :
    kbGet (kb.map (fun e => if e.1 == u then (u, d) else e)) u = some d := by
  induction kb with
  | nil => simp [kbHas] at h
  | cons e rest ih =>
    rw [kbHas_cons] at h
    rw [List.map_cons]
    by_cases he : (e.1 == u) = true
    · rw [if_pos he, kbGet_cons, if_pos (by simp)]
    · have he2 : (e.1 == u) = false := by simpa using he
      rw [if_neg he, kbGet_cons, if_neg he]
      rw [he2, Bool.false_or] at h
      exact ih h

theorem kbGet_map_replace_ne (kb : KB) (u v : String) (d : Doc) (hvu : v ≠ u) :
    kbGet (kb.map (fun e => if e.1 == u then (u, d) else e)) v = kbGet kb v := by
  induction kb with
  | nil => rfl
  | cons e rest ih =>
    rw [List.map_cons]
    by_cases he : (e.1 == u) = true
    · have h1 : e.1 = u := by simpa using he
      rw [if_pos he, kbGet_cons, kbGet_cons]
      rw [if_neg (by simp [Ne.symm hvu]), if_neg (by simp [h1, Ne.symm hvu]), ih]
    · rw [if_neg he, kbGet_cons, kbGet_cons]
      by_cases hv : (e.1 == v) = true
      · rw [if_pos hv, if_pos hv]
      · rw [if_neg hv, if_neg hv, ih]

theorem kbGet_append_single_ne (kb : KB) (u v : String) (d : Doc) (hvu : v ≠ u) :
    kbGet (kb ++ [(u, d)]) v = kbGet kb v := by
  induction kb with
  | nil =>
    rw [List.nil_append, kbGet_cons, if_neg (by simp [Ne.symm hvu])]
  | cons e rest ih =>
    rw [List.cons_append, kbGet_cons, kbGet_cons]
    by_cases hv : (e.1 == v) = true
    · rw [if_pos hv, if_pos hv]
    · simp only [Bool.not_eq_true] at hv
      rw [if_neg (by simp [hv]), if_neg (by simp [hv]), ih]

theorem kbGet_append_single_self (kb : KB) (u : String) (d : Doc)
    (h : kbHas kb u = false) :
    kbGet (kb ++ [(u, d)]) u = some d := by
  induction kb with
  | nil => rw [List.nil_append, kbGet_cons, if_pos (by simp)]
  | cons e rest ih =>
    rw [kbHas_cons, Bool.or_eq_false_iff] at h
    rw [List.cons_append, kbGet_cons, if_neg (by simp [h.1]), ih h.2]

theorem kbGet_set_self (kb : KB) (u : String) (d : Doc) :
    kbGet (kbSet kb u d) u = some d := by
  rw [kbSet]
  by_cases h : kbHas kb u
  · rw [if_pos h]; exact kbGet_map_replace_self kb u d h
  · rw [if_neg h]
    exact kbGet_append_single_self kb u d (by simpa using h)

theorem kbGet_set_ne (kb : KB) (u v : String) (d : Doc) (hvu : v ≠ u) :
    kbGet (kbSet kb u d) v = kbGet kb v := by
  rw [kbSet]
  by_cases h : kbHas kb u
  · rw [if_pos h]; exact kbGet_map_replace_ne kb u v d hvu
  · rw [if_neg h]; exact kbGet_append_single_ne kb u v d hvu

theorem kbHas_set (kb : KB) (u v : String) (d : Doc) :
    kbHas (kbSet kb u d) v = ((v == u) || kbHas kb v) := by
  by_cases hvu : v = u
  · subst hvu
    rw [kbHas_eq_isSome_kbGet, kbGet_set_self]
    simp
  · rw [kbHas_eq_isSome_kbGet, kbGet_set_ne kb u v d hvu, ← kbHas_eq_isSome_kbGet]
    simp [hvu]

theorem kbHas_set_of_has (kb : KB) (u v : String) (d : Doc)
    (h : kbHas kb v = true) : kbHas (kbSet kb u d) v = true := by
  rw [kbHas_set, h, Bool.or_true]

/-! ### Link-collection lemmas -/

theorem collectLinks_not_in_store (kb : KB) (page : Page) (l : SeedSection)
    (h : l ∈ collectLinks kb page) :
    kbHas kb l.url = false ∧ jsStartsWith l.url crawlDomain = true := by
  rw [collectLinks, List.mem_filterMap] at h
  obtain ⟨a, _, ha⟩ := h
  cases hhref : a.href with
  | none => simp [linkOfAnchor, hhref] at ha
  | some href =>
    simp only [linkOfAnchor, hhref] at ha
    by_cases hc : (href != "" && jsStartsWith href crawlDomain && !kbHas kb href) = true
    · rw [if_pos hc] at ha
      cases ha
      simp only [Bool.and_eq_true] at hc
      refine ⟨?_, hc.1.2⟩
      simpa using hc.2
    · rw [if_neg hc] at ha
      exact absurd ha (by simp)

/-! ### Crawler lemmas: the link loop -/

theorem scrapeList_cons_fst (f : SeedSection → KB → KB × List FetchEvent)
    (l : SeedSection) (rest : List SeedSection) (kb : KB) :
    (scrapeList f (l :: rest) kb).1 = (scrapeList f rest (f l kb).1).1 := rfl

theorem scrapeList_cons_snd (f : SeedSection → KB → KB × List FetchEvent)
    (l : SeedSection) (rest : List SeedSection) (kb : KB) :
    (scrapeList f (l :: rest) kb).2 = (f l kb).2 ++ (scrapeList f rest (f l kb).1).2 := rfl

theorem scrapeList_has_mono (f : SeedSection → KB → KB × List FetchEvent) (u : String)
    (hf : ∀ l kbx, kbHas kbx u = true → kbHas (f l kbx).1 u = true) :
    ∀ links kb, kbHas kb u = true → kbHas (scrapeList f links kb).1 u = true := by
  intro links
  induction links with
  | nil => intro kb h; exact h
  | cons l rest ih => intro kb h; exact ih _ (hf l kb h)

theorem scrapeList_get_preserve (f : SeedSection → KB → KB × List FetchEvent) (u : String)
    (hmono : ∀ l kbx, kbHas kbx u = true → kbHas (f l kbx).1 u = true)
    (hf : ∀ l kbx, kbHas kbx u = true → l.url ≠ u → kbGet (f l kbx).1 u = kbGet kbx u) :
    ∀ links kb, kbHas kb u = true → (∀ l ∈ links, l.url ≠ u) →
      kbGet (scrapeList f links kb).1 u = kbGet kb u := by
  intro links
  induction links with
  | nil => intro kb _ _; rfl
  | cons l rest ih =>
    intro kb h hl
    have h1 : kbGet (f l kb).1 u = kbGet kb u :=
      hf l kb h (hl l (List.mem_cons_self l rest))
    have h2 := ih (f l kb).1 (hmono l kb h) (fun x hx => hl x (List.mem_cons_of_mem l hx))
    rw [scrapeList_cons_fst, h2, h1]

theorem scrapeList_get_id (f : SeedSection → KB → KB × List FetchEvent) (u : String)
    (hf : ∀ l kbx, kbGet (f l kbx).1 u = kbGet kbx u) :
    ∀ links kb, kbGet (scrapeList f links kb).1 u = kbGet kb u := by
  intro links
  induction links with
  | nil => intro kb; rfl
  | cons l rest ih =>
    intro kb
    rw [scrapeList_cons_fst, ih, hf]

theorem scrapeList_event_url (f : SeedSection → KB → KB × List FetchEvent) (u : String)
    (hmono : ∀ l kbx, kbHas kbx u = true → kbHas (f l kbx).1 u = true)
    (hf : ∀ l kbx e, kbHas kbx u = true → e ∈ (f l kbx).2 → e.1 = u → u = l.url) :
    ∀ links kb e, kbHas kb u = true → e ∈ (scrapeList f links kb).2 → e.1 = u →
      ∃ l ∈ links, u = l.url := by
  intro links
  induction links with
  | nil => intro kb e _ he _; exact absurd he (by simp [scrapeList])
  | cons l rest ih =>
    intro kb e h he heu
    rw [scrapeList_cons_snd] at he
    rcases List.mem_append.mp he with h1 | h2
    · exact ⟨l, List.mem_cons_self l rest, hf l kb e h h1 heu⟩
    · obtain ⟨x, hx, hxu⟩ := ih (f l kb).1 e (hmono l kb h) h2 heu
      exact ⟨x, List.mem_cons_of_mem l hx, hxu⟩

theorem scrapeList_event_depth (f : SeedSection → KB → KB × List FetchEvent) (B : Nat)
    (hf : ∀ l kbx e, e ∈ (f l kbx).2 → e.2 < B) :
    ∀ links kb e, e ∈ (scrapeList f links kb).2 → e.2 < B := by
  intro links
  induction links with
  | nil => intro kb e he; exact absurd he (by simp [scrapeList])
  | cons l rest ih =>
    intro kb e he
    rw [scrapeList_cons_snd] at he
    rcases List.mem_append.mp he with h1 | h2
    · exact hf l kb e h1
    · exact ih (f l kb).1 e h2

theorem scrapeList_get_provenance (f : SeedSection → KB → KB × List FetchEvent)
    (P : Doc → Prop)
    (hf : ∀ l kbx u dv, kbGet (f l kbx).1 u = some dv → kbGet kbx u = some dv ∨ P dv) :
    ∀ links kb u dv, kbGet (scrapeList f links kb).1 u = some dv →
      kbGet kb u = some dv ∨ P dv := by
  intro links
  induction links with
  | nil => intro kb u dv h; exact Or.inl h
  | cons l rest ih =>
    intro kb u dv h
    rw [scrapeList_cons_fst] at h
    rcases ih (f l kb).1 u dv h with h1 | h2
    · exact hf l kb u dv h1
    · exact Or.inr h2

theorem scrapeList_event_of_mem (f : SeedSection → KB → KB × List FetchEvent)
    (ev : SeedSection → FetchEvent)
    (hf : ∀ l kbx, ev l ∈ (f l kbx).2) :
    ∀ links kb l, l ∈ links → ev l ∈ (scrapeList f links kb).2 := by
  intro links
  induction links with
  | nil => intro kb l hl; exact absurd hl (by simp)
  | cons x rest ih =>
    intro kb l hl
    rw [scrapeList_cons_snd]
    rcases List.mem_cons.mp hl with h1 | h2
    · subst h1; exact List.mem_append_left _ (hf l kb)
    · exact List.mem_append_right _ (ih (f x kb).1 l h2)

/-! ### Crawler lemmas: the recursive scrape -/

theorem scrapeGo_zero (fetch : FetchFn) (sec : SeedSection) (depth : Nat) (kb : KB) :
    scrapeGo fetch 0 sec depth kb = (kb, []) := rfl

theorem scrapeGo_succ (fetch : FetchFn) (g : Nat) (sec : SeedSection) (depth : Nat)
    (kb : KB) :
    scrapeGo fetch (g + 1) sec depth kb =
      match fetch sec.url with
      | none => (kb, [(sec.url, depth)])
      | some page =>
        let kb1 := kbSet kb sec.url (mkDoc sec page)
        let r := scrapeList (fun l kbx => scrapeGo fetch g l (depth + 1) kbx)
          (collectLinks kb1 page) kb1
        (r.1, (sec.url, depth) :: r.2) := rfl

theorem scrapeGo_has_mono (fetch : FetchFn) (u : String) :
    ∀ g sec depth kb, kbHas kb u = true →
      kbHas (scrapeGo fetch g sec depth kb).1 u = true := by
  intro g
  induction g with
  | zero => intro sec depth kb h; exact h
  | succ g ih =>
    intro sec depth kb h
    rw [scrapeGo_succ]
    cases hfs : fetch sec.url with
    | none => exact h
    | some page =>
      exact scrapeList_has_mono _ u (fun l kbx hx => ih l (depth + 1) kbx hx) _ _
        (kbHas_set_of_has kb sec.url u (mkDoc sec page) h)

theorem scrapeGo_get_preserve (fetch : FetchFn) (u : String) :
    ∀ g sec depth kb, kbHas kb u = true → sec.url ≠ u →
      kbGet (scrapeGo fetch g sec depth kb).1 u = kbGet kb u := by
  intro g
  induction g with
  | zero => intro sec depth kb _ _; rfl
  | succ g ih =>
    intro sec depth kb h hne
    rw [scrapeGo_succ]
    cases hfs : fetch sec.url with
    | none => rfl
    | some page =>
      have hset : kbGet (kbSet kb sec.url (mkDoc sec page)) u = kbGet kb u :=
        kbGet_set_ne kb sec.url u (mkDoc sec page) (Ne.symm hne)
      have hhas1 : kbHas (kbSet kb sec.url (mkDoc sec page)) u = true :=
        kbHas_set_of_has kb sec.url u (mkDoc sec page) h
      have hlinks : ∀ l ∈ collectLinks (kbSet kb sec.url (mkDoc sec page)) page,
          l.url ≠ u := by
        intro l hl hlu
        have hns := (collectLinks_not_in_store _ page l hl).1
        rw [hlu] at hns
        rw [hns] at hhas1
        cases hhas1
      have := scrapeList_get_preserve _ u
        (fun l kbx hx => scrapeGo_has_mono fetch u g l (depth + 1) kbx hx)
        (fun l kbx hx hlu => ih l (depth + 1) kbx hx hlu)
        (collectLinks (kbSet kb sec.url (mkDoc sec page)) page)
        (kbSet kb sec.url (mkDoc sec page)) hhas1 hlinks
      exact this.trans hset

theorem scrapeGo_get_of_fetch_none (fetch : FetchFn) (u : String) (hu : fetch u = none) :
    ∀ g sec depth kb, kbGet (scrapeGo fetch g sec depth kb).1 u = kbGet kb u := by
  intro g
  induction g with
  | zero => intro sec depth kb; rfl
  | succ g ih =>
    intro sec depth kb
    rw [scrapeGo_succ]
    cases hfs : fetch sec.url with
    | none => rfl
    | some page =>
      have hne : sec.url ≠ u := by
        intro h
        rw [h, hu] at hfs
        cases hfs
      have h1 := scrapeList_get_id _ u (fun l kbx => ih l (depth + 1) kbx)
        (collectLinks (kbSet kb sec.url (mkDoc sec page)) page)
        (kbSet kb sec.url (mkDoc sec page))
      exact h1.trans (kbGet_set_ne kb sec.url u (mkDoc sec page) (Ne.symm hne))

theorem scrapeGo_event_of_has (fetch : FetchFn) (u : String) :
    ∀ g sec depth kb e, kbHas kb u = true → e ∈ (scrapeGo fetch g sec depth kb).2 →
      e.1 = u → u = sec.url := by
  intro g
  induction g with
  | zero => intro sec depth kb e _ he _; exact absurd he (by simp [scrapeGo_zero])
  | succ g ih =>
    intro sec depth kb e h he heu
    rw [scrapeGo_succ] at he
    cases hfs : fetch sec.url with
    | none =>
      rw [hfs] at he
      have : e = (sec.url, depth) := by simpa using he
      rw [this] at heu
      exact heu.symm
    | some page =>
      rw [hfs] at he
      rcases List.mem_cons.mp he with h1 | h2
      · rw [h1] at heu; exact heu.symm
      · have hhas1 : kbHas (kbSet kb sec.url (mkDoc sec page)) u = true :=
          kbHas_set_of_has kb sec.url u (mkDoc sec page) h
        obtain ⟨l, hl, hlu⟩ := scrapeList_event_url _ u
          (fun l kbx hx => scrapeGo_has_mono fetch u g l (depth + 1) kbx hx)
          (fun l kbx e2 hx he2 he2u => ih l (depth + 1) kbx e2 hx he2 he2u)
          (collectLinks (kbSet kb sec.url (mkDoc sec page)) page)
          (kbSet kb sec.url (mkDoc sec page)) e hhas1 h2 heu
        have hns := (collectLinks_not_in_store _ page l hl).1
        rw [← hlu] at hns
        rw [hns] at hhas1
        cases hhas1

theorem scrapeGo_event_depth (fetch : FetchFn) :
    ∀ g sec depth kb e, e ∈ (scrapeGo fetch g sec depth kb).2 → e.2 < depth + g := by
  intro g
  induction g with
  | zero => intro sec depth kb e he; exact absurd he (by simp [scrapeGo_zero])
  | succ g ih =>
    intro sec depth kb e he
    rw [scrapeGo_succ] at he
    cases hfs : fetch sec.url with
    | none =>
      rw [hfs] at he
      have : e = (sec.url, depth) := by simpa using he
      rw [this]
      omega
    | some page =>
      rw [hfs] at he
      rcases List.mem_cons.mp he with h1 | h2
      · rw [h1]
        show depth < depth + (g + 1)
        omega
      · have := scrapeList_event_depth _ (depth + (g + 1))
          (fun l kbx e2 he2 => by
            have := ih l (depth + 1) kbx e2 he2
            omega)
          (collectLinks (kbSet kb sec.url (mkDoc sec page)) page)
          (kbSet kb sec.url (mkDoc sec page)) e h2
        exact this

theorem scrapeGo_root_stored (fetch : FetchFn) (sec : SeedSection) (page : Page)
    (hfs : fetch sec.url = some page) (g depth : Nat) (kb : KB) :
    kbGet (scrapeGo fetch (g + 1) sec depth kb).1 sec.url = some (mkDoc sec page) := by
  rw [scrapeGo_succ, hfs]
  have hkb1get : kbGet (kbSet kb sec.url (mkDoc sec page)) sec.url =
      some (mkDoc sec page) := kbGet_set_self kb sec.url (mkDoc sec page)
  have hkb1has : kbHas (kbSet kb sec.url (mkDoc sec page)) sec.url = true := by
    rw [kbHas_eq_isSome_kbGet, hkb1get]
    rfl
  have hlinks : ∀ l ∈ collectLinks (kbSet kb sec.url (mkDoc sec page)) page,
      l.url ≠ sec.url := by
    intro l hl hlu
    have hns := (collectLinks_not_in_store _ page l hl).1
    rw [hlu] at hns
    rw [hns] at hkb1has
    cases hkb1has
  have := scrapeList_get_preserve _ sec.url
    (fun l kbx hx => scrapeGo_has_mono fetch sec.url g l (depth + 1) kbx hx)
    (fun l kbx hx hlu => scrapeGo_get_preserve fetch sec.url g l (depth + 1) kbx hx hlu)
    (collectLinks (kbSet kb sec.url (mkDoc sec page)) page)
    (kbSet kb sec.url (mkDoc sec page)) hkb1has hlinks
  exact this.trans hkb1get

theorem scrapeGo_root_event (fetch : FetchFn) (g : Nat) (sec : SeedSection)
    (depth : Nat) (kb : KB) :
    (sec.url, depth) ∈ (scrapeGo fetch (g + 1) sec depth kb).2 := by
  rw [scrapeGo_succ]
  cases hfs : fetch sec.url with
  | none => exact List.mem_singleton.mpr rfl
  | some page => exact List.mem_cons_self _ _

/-! ### Whitespace-normalization lemmas -/

theorem noDoubleWs_nil : noDoubleWs [] = true := rfl

theorem noDoubleWs_singleton (c : Char) : noDoubleWs [c] = true := rfl

theorem noDoubleWs_two (c1 c2 : Char) (rest : List Char) :
    noDoubleWs (c1 :: c2 :: rest) =
      ((!(c1.isWhitespace && c2.isWhitespace)) && noDoubleWs (c2 :: rest)) := rfl

theorem noDoubleWs_tail (c : Char) (l : List Char) (h : noDoubleWs (c :: l) = true) :
    noDoubleWs l = true := by
  cases l with
  | nil => rfl
  | cons c2 rest =>
    rw [noDoubleWs_two, Bool.and_eq_true] at h
    exact h.2

theorem noDoubleWs_cons_of_not_ws (c : Char) (l : List Char)
    (hc : c.isWhitespace = false) (h : noDoubleWs l = true) :
    noDoubleWs (c :: l) = true := by
  cases l with
  | nil => rfl
  | cons c2 rest =>
    rw [noDoubleWs_two, Bool.and_eq_true]
    exact ⟨by rw [hc]; rfl, h⟩

theorem collapseWsAux_two (c1 c2 : Char) (rest : List Char) :
    collapseWsAux (c1 :: c2 :: rest) =
      if c1.isWhitespace then
        if c2.isWhitespace then collapseWsAux (c2 :: rest)
        else ' ' :: collapseWsAux (c2 :: rest)
      else c1 :: collapseWsAux (c2 :: rest) := rfl

theorem collapseWsAux_cons_not_ws (c : Char) (l : List Char)
    (hc : c.isWhitespace = false) :
    collapseWsAux (c :: l) = c :: collapseWsAux l := by
  cases l with
  | nil =>
    show (if c.isWhitespace then [' '] else [c]) = c :: []
    rw [if_neg (by rw [hc]; exact Bool.false_ne_true)]
  | cons c2 rest =>
    rw [collapseWsAux_two, if_neg (by rw [hc]; exact Bool.false_ne_true)]

theorem noDoubleWs_collapseWsAux (l : List Char) :
    noDoubleWs (collapseWsAux l) = true := by
  induction l with
  | nil => rfl
  | cons c rest ih =>
    cases rest with
    | nil =>
      show noDoubleWs (if c.isWhitespace then [' '] else [c]) = true
      by_cases hc : c.isWhitespace = true
      · rw [if_pos hc]; rfl
      · rw [if_neg hc]; rfl
    | cons c2 rest2 =>
      rw [collapseWsAux_two]
      by_cases hc : c.isWhitespace = true
      · rw [if_pos hc]
        by_cases hc2 : c2.isWhitespace = true
        · rw [if_pos hc2]; exact ih
        · have hc2f : c2.isWhitespace = false := by simpa using hc2
          rw [if_neg hc2, collapseWsAux_cons_not_ws c2 rest2 hc2f]
          rw [noDoubleWs_two, Bool.and_eq_true]
          constructor
          · rw [hc2f]; simp
          · rw [← collapseWsAux_cons_not_ws c2 rest2 hc2f]
            exact ih
      · have hcf : c.isWhitespace = false := by simpa using hc
        rw [if_neg hc]
        exact noDoubleWs_cons_of_not_ws c _ hcf ih

theorem noDoubleWs_append_left (l1 l2 : List Char)
    (h : noDoubleWs (l1 ++ l2) = true) : noDoubleWs l1 = true := by
  induction l1 with
  | nil => rfl
  | cons a t ih =>
    cases t with
    | nil => rfl
    | cons b t2 =>
      rw [List.cons_append, List.cons_append, noDoubleWs_two, Bool.and_eq_true] at h
      rw [noDoubleWs_two, Bool.and_eq_true]
      refine ⟨h.1, ih ?_⟩
      rw [List.cons_append]
      exact h.2

theorem noDoubleWs_take (l : List Char) (n : Nat) (h : noDoubleWs l = true) :
    noDoubleWs (l.take n) = true := by
  apply noDoubleWs_append_left (l.take n) (l.drop n)
  rw [List.take_append_drop]
  exact h

theorem noDoubleWs_dropWhile (p : Char → Bool) (l : List Char)
    (h : noDoubleWs l = true) : noDoubleWs (l.dropWhile p) = true := by
  induction l with
  | nil => rfl
  | cons c rest ih =>
    rw [List.dropWhile_cons]
    by_cases hp : p c = true
    · rw [if_pos hp]
      exact ih (noDoubleWs_tail c rest h)
    · rw [if_neg hp]
      exact h

theorem dropTrailingWs_cons (c : Char) (rest : List Char) :
    dropTrailingWs (c :: rest) =
      if (dropTrailingWs rest).isEmpty && c.isWhitespace then []
      else c :: dropTrailingWs rest := rfl

theorem dropTrailingWs_head? (l : List Char) :
    (dropTrailingWs l).head? = none ∨ (dropTrailingWs l).head? = l.head? := by
  cases l with
  | nil => exact Or.inl rfl
  | cons c rest =>
    rw [dropTrailingWs_cons]
    by_cases h : ((dropTrailingWs rest).isEmpty && c.isWhitespace) = true
    · rw [if_pos h]; exact Or.inl rfl
    · rw [if_neg h]; exact Or.inr rfl

theorem noDoubleWs_dropTrailingWs (l : List Char) (h : noDoubleWs l = true) :
    noDoubleWs (dropTrailingWs l) = true := by
  induction l with
  | nil => rfl
  | cons c rest ih =>
    rw [dropTrailingWs_cons]
    by_cases hif : ((dropTrailingWs rest).isEmpty && c.isWhitespace) = true
    · rw [if_pos hif]; rfl
    · rw [if_neg hif]
      have ihr : noDoubleWs (dropTrailingWs rest) = true := ih (noDoubleWs_tail c rest h)
      rcases dropTrailingWs_head? rest with hh | hh
      · rw [List.head?_eq_none_iff] at hh
        rw [hh]
        rfl
      · cases hr : dropTrailingWs rest with
        | nil => rfl
        | cons x xs =>
          rw [hr] at hh ihr
          cases rest with
          | nil => cases hh
          | cons y ys =>
            have hxy : x = y := by
              have : some x = some y := hh
              exact Option.some.inj this
            subst hxy
            rw [noDoubleWs_two, Bool.and_eq_true]
            refine ⟨?_, ihr⟩
            rw [noDoubleWs_two, Bool.and_eq_true] at h
            exact h.1

theorem leadingWsFree_head? (l : List Char) (h : leadingWsFree l = true) (c : Char)
    (hc : l.head? = some c) : c.isWhitespace = false := by
  cases l with
  | nil => cases hc
  | cons x xs =>
    have hx : x = c := Option.some.inj hc
    subst hx
    simpa [leadingWsFree] using h

theorem leadingWsFree_of_head? (l : List Char)
    (h : ∀ c, l.head? = some c → c.isWhitespace = false) : leadingWsFree l = true := by
  cases l with
  | nil => rfl
  | cons x xs =>
    have := h x rfl
    simp [leadingWsFree, this]

theorem leadingWsFree_dropWhileWs (l : List Char) :
    leadingWsFree (l.dropWhile Char.isWhitespace) = true := by
  induction l with
  | nil => rfl
  | cons c rest ih =>
    rw [List.dropWhile_cons]
    by_cases hp : c.isWhitespace = true
    · rw [if_pos hp]; exact ih
    · rw [if_neg hp]
      simp only [Bool.not_eq_true] at hp
      simp [leadingWsFree, hp]

theorem leadingWsFree_dropTrailingWs (l : List Char) (h : leadingWsFree l = true) :
    leadingWsFree (dropTrailingWs l) = true := by
  apply leadingWsFree_of_head?
  intro c hc
  rcases dropTrailingWs_head? l with hh | hh
  · rw [hh] at hc; cases hc
  · rw [hh] at hc
    exact leadingWsFree_head? l h c hc

theorem leadingWsFree_take (l : List Char) (n : Nat) (h : leadingWsFree l = true) :
    leadingWsFree (l.take n) = true := by
  apply leadingWsFree_of_head?
  intro c hc
  rw [List.head?_take] at hc
  by_cases hn : n = 0
  · rw [if_pos hn] at hc; cases hc
  · rw [if_neg hn] at hc
    exact leadingWsFree_head? l h c hc

theorem contentOk_extractContent (body : String) : contentOk (extractContent body) := by
  refine ⟨?_, ?_, ?_⟩
  · show ((dropTrailingWs ((collapseWsAux body.data).dropWhile Char.isWhitespace)).take
      1000).length ≤ 1000
    rw [List.length_take]
    exact inf_le_left
  · exact noDoubleWs_take _ 1000
      (noDoubleWs_dropTrailingWs _
        (noDoubleWs_dropWhile _ _ (noDoubleWs_collapseWsAux body.data)))
  · exact leadingWsFree_take _ 1000
      (leadingWsFree_dropTrailingWs _ (leadingWsFree_dropWhileWs (collapseWsAux body.data)))

theorem scrapeGo_get_provenance (fetch : FetchFn) :
    ∀ g sec depth kb u dv, kbGet (scrapeGo fetch g sec depth kb).1 u = some dv →
      kbGet kb u = some dv ∨ contentOk dv.content := by
  intro g
  induction g with
  | zero => intro sec depth kb u dv h; exact Or.inl h
  | succ g ih =>
    intro sec depth kb u dv h
    rw [scrapeGo_succ] at h
    cases hfs : fetch sec.url with
    | none => rw [hfs] at h; exact Or.inl h
    | some page =>
      rw [hfs] at h
      have h2 := scrapeList_get_provenance _ (fun d => contentOk d.content)
        (fun l kbx u2 dv2 hx => ih l (depth + 1) kbx u2 dv2 hx)
        (collectLinks (kbSet kb sec.url (mkDoc sec page)) page)
        (kbSet kb sec.url (mkDoc sec page)) u dv h
      rcases h2 with h3 | h3
      · by_cases hu : u = sec.url
        · subst hu
          rw [kbGet_set_self] at h3
          have : dv = mkDoc sec page := (Option.some.inj h3).symm
          subst this
          exact Or.inr (contentOk_extractContent page.bodyText)
        · rw [kbGet_set_ne kb sec.url u (mkDoc sec page) hu] at h3
          exact Or.inl h3
      · exact Or.inr h3

/-! ### Search lemmas -/

theorem searchLoop_nil (ql : String) (limit : Int) (acc : List SearchResult) :
    searchLoop ql limit [] acc = acc := rfl

theorem searchLoop_cons_eq (ql : String) (limit : Int) (e : String × Doc)
    (rest : List (String × Doc)) (acc : List SearchResult) :
    searchLoop ql limit (e :: rest) acc =
      if limit ≤ (((if matchesQuery ql e.2 then acc ++ [mkSearchResult e.2]
          else acc).length : Int))
      then (if matchesQuery ql e.2 then acc ++ [mkSearchResult e.2] else acc)
      else searchLoop ql limit rest
        (if matchesQuery ql e.2 then acc ++ [mkSearchResult e.2] else acc) := rfl

theorem searchLoop_eq (ql : String) (limit : Int) :
    ∀ (entries : List (String × Doc)) (acc : List SearchResult),
      (acc.length : Int) < limit →
      searchLoop ql limit entries acc =
        acc ++ (((entries.map Prod.snd).filter (matchesQuery ql)).take
          (limit - acc.length).toNat).map mkSearchResult := by
  intro entries
  induction entries with
  | nil =>
    intro acc _
    rw [searchLoop_nil]
    simp
  | cons e rest ih =>
    intro acc h
    rw [searchLoop_cons_eq]
    rw [List.map_cons]
    by_cases hm : matchesQuery ql e.2 = true
    · rw [if_pos hm, List.filter_cons_of_pos hm]
      by_cases hstop : limit ≤ (((acc ++ [mkSearchResult e.2]).length : Nat) : Int)
      · rw [if_pos hstop]
        have hlen : ((acc ++ [mkSearchResult e.2]).length : Int) =
            (acc.length : Int) + 1 := by
          simp
        have h1 : (limit - acc.length).toNat = 0 + 1 := by
          rw [hlen] at hstop
          omega
        rw [h1, List.take_succ_cons, List.take_zero, List.map_cons, List.map_nil]
      · rw [if_neg hstop]
        have hlen : ((acc ++ [mkSearchResult e.2]).length : Int) =
            (acc.length : Int) + 1 := by
          simp
        have h2 : (((acc ++ [mkSearchResult e.2]).length : Nat) : Int) < limit :=
          lt_of_not_le hstop
        rw [ih _ h2]
        have h3 : (limit - acc.length).toNat =
            (limit - ((acc ++ [mkSearchResult e.2]).length : Int)).toNat + 1 := by
          rw [hlen]
          rw [hlen] at h2
          omega
        rw [h3, List.take_succ_cons, List.map_cons, List.append_assoc]
        rfl
    · rw [if_neg hm, List.filter_cons_of_neg hm]
      have hstop : ¬ (limit ≤ (acc.length : Int)) := not_le.mpr h
      rw [if_neg hstop]
      exact ih acc h

theorem searchKnowledgeBase_eq (kb : KB) (q : String) (limit : Int) (h : 1 ≤ limit) :
    searchKnowledgeBase kb q limit =
      (((kb.map Prod.snd).filter (matchesQuery (jsToLower q))).take limit.toNat).map
        mkSearchResult := by
  rw [searchKnowledgeBase, searchLoop_eq (jsToLower q) limit kb []
    (by show ((0 : Nat) : Int) < limit; omega)]
  simp

theorem searchKnowledgeBase_nonpos (kb : KB) (q : String) (limit : Int)
    (h : limit ≤ 0) :
    searchKnowledgeBase kb q limit = firstEntryResult kb q := by
  cases kb with
  | nil => rfl
  | cons e rest =>
    by_cases hm : matchesQuery (jsToLower q) e.2 = true
    · have hr : firstEntryResult (e :: rest) q = [mkSearchResult e.2] := by
        show (if matchesQuery (jsToLower q) e.2 then [mkSearchResult e.2] else []) = _
        rw [if_pos hm]
      rw [hr, searchKnowledgeBase, searchLoop_cons_eq, if_pos hm, if_pos]
      · exact List.nil_append _
      · show limit ≤ (((([] : List SearchResult) ++ [mkSearchResult e.2]).length : Nat) : Int)
        simp
        omega
    · have hr : firstEntryResult (e :: rest) q = [] := by
        show (if matchesQuery (jsToLower q) e.2 then [mkSearchResult e.2] else []) = _
        rw [if_neg hm]
      rw [hr, searchKnowledgeBase, searchLoop_cons_eq, if_neg hm, if_pos]
      show limit ≤ ((([] : List SearchResult).length : Nat) : Int)
      simp
      omega

theorem listContains_nil_needle (l : List Char) : listContains [] l = true := by
  cases l with
  | nil => rfl
  | cons c rest => rfl

theorem matchesQuery_empty_query (d : Doc) : matchesQuery (jsToLower "") d = true := by
  have h1 : (jsToLower "") = "" := rfl
  rw [h1]
  show (jsIncludes (jsToLower d.title) "" || jsIncludes (jsToLower d.content) "") = true
  rw [jsIncludes, jsIncludes]
  rw [show ("" : String).data = ([] : List Char) from rfl]
  rw [listContains_nil_needle, listContains_nil_needle]
  rfl

/-! ### Pass-level lemmas -/

theorem scrapeSectionRecursively_zero_one (fetch : FetchFn) (sec : SeedSection)
    (kb : KB) :
    scrapeSectionRecursively fetch sec 0 1 kb = scrapeGo fetch 2 sec 0 kb := rfl

theorem pass_get_of_fetch_none (fetch : FetchFn) (u : String) (hu : fetch u = none)
    (kb : KB) : kbGet (scrapeEpturaKnowledge fetch kb).1 u = kbGet kb u :=
  scrapeList_get_id _ u
    (fun sec kbx => scrapeGo_get_of_fetch_none fetch u hu 2 sec 0 kbx)
    KNOWLEDGE_SECTIONS kb

theorem pass_event_depth (fetch : FetchFn) (kb : KB) (e : FetchEvent)
    (he : e ∈ (scrapeEpturaKnowledge fetch kb).2) : e.2 ≤ 1 := by
  have h := scrapeList_event_depth _ 2
    (fun sec kbx e2 he2 => scrapeGo_event_depth fetch 2 sec 0 kbx e2 he2)
    KNOWLEDGE_SECTIONS kb e he
  omega

theorem pass_seed_event (fetch : FetchFn) (kb : KB) (sec : SeedSection)
    (hsec : sec ∈ KNOWLEDGE_SECTIONS) :
    (sec.url, 0) ∈ (scrapeEpturaKnowledge fetch kb).2 :=
  scrapeList_event_of_mem _ (fun l => (l.url, 0))
    (fun l kbx => scrapeGo_root_event fetch 1 l 0 kbx)
    KNOWLEDGE_SECTIONS kb sec hsec

theorem pass_event_of_has (fetch : FetchFn) (kb : KB) (u : String) (e : FetchEvent)
    (h : kbHas kb u = true) (he : e ∈ (scrapeEpturaKnowledge fetch kb).2)
    (heu : e.1 = u) : ∃ sec ∈ KNOWLEDGE_SECTIONS, u = sec.url :=
  scrapeList_event_url _ u
    (fun sec kbx hx => scrapeGo_has_mono fetch u 2 sec 0 kbx hx)
    (fun sec kbx e2 hx he2 he2u => scrapeGo_event_of_has fetch u 2 sec 0 kbx e2 hx he2 he2u)
    KNOWLEDGE_SECTIONS kb e h he heu

theorem pass_get_preserve_nonseed (fetch : FetchFn) (kb : KB) (u : String)
    (h : kbHas kb u = true) (hns : ∀ sec ∈ KNOWLEDGE_SECTIONS, sec.url ≠ u) :
    kbGet (scrapeEpturaKnowledge fetch kb).1 u = kbGet kb u :=
  scrapeList_get_preserve _ u
    (fun sec kbx hx => scrapeGo_has_mono fetch u 2 sec 0 kbx hx)
    (fun sec kbx hx hlu => scrapeGo_get_preserve fetch u 2 sec 0 kbx hx hlu)
    KNOWLEDGE_SECTIONS kb h hns

theorem pass_get_provenance (fetch : FetchFn) (kb : KB) (u : String) (dv : Doc)
    (h : kbGet (scrapeEpturaKnowledge fetch kb).1 u = some dv) :
    kbGet kb u = some dv ∨ contentOk dv.content :=
  scrapeList_get_provenance _ (fun d => contentOk d.content)
    (fun sec kbx u2 dv2 hx => scrapeGo_get_provenance fetch 2 sec 0 kbx u2 dv2 hx)
    KNOWLEDGE_SECTIONS kb u dv h

/-! ### Identity lemmas for already-normalized text -/

theorem trailingWsFree_eq (l : List Char) :
    trailingWsFree l =
      (match l.getLast? with
       | none => true
       | some c => !c.isWhitespace) := rfl

theorem collapseWsAux_id (l : List Char) (hnd : noDoubleWs l = true)
    (hsp : ∀ c ∈ l, c.isWhitespace = true → c = ' ') :
    collapseWsAux l = l := by
  induction l with
  | nil => rfl
  | cons c rest ih =>
    cases rest with
    | nil =>
      show (if c.isWhitespace then [' '] else [c]) = [c]
      by_cases hc : c.isWhitespace = true
      · rw [if_pos hc, hsp c (List.mem_singleton_self c) hc]
      · rw [if_neg hc]
    | cons c2 rest2 =>
      have hrest := ih (noDoubleWs_tail c _ hnd)
        (fun x hx hw => hsp x (List.mem_cons_of_mem c hx) hw)
      rw [collapseWsAux_two]
      by_cases hc : c.isWhitespace = true
      · have hc2 : c2.isWhitespace = false := by
          rw [noDoubleWs_two, Bool.and_eq_true] at hnd
          have h1 := hnd.1
          cases h2 : c2.isWhitespace
          · rfl
          · rw [hc, h2] at h1; cases h1
        rw [if_pos hc, if_neg (by rw [hc2]; exact Bool.false_ne_true)]
        rw [hrest, hsp c (List.mem_cons_self _ _) hc]
      · rw [if_neg hc, hrest]

theorem dropWhileWs_id (l : List Char) (h : leadingWsFree l = true) :
    l.dropWhile Char.isWhitespace = l := by
  cases l with
  | nil => rfl
  | cons c rest =>
    have hc : (!c.isWhitespace) = true := h
    rw [List.dropWhile_cons, if_neg (by simpa using hc)]

theorem dropTrailingWs_id (l : List Char) (h : trailingWsFree l = true) :
    dropTrailingWs l = l := by
  induction l with
  | nil => rfl
  | cons c rest ih =>
    cases rest with
    | nil =>
      have hc : (!c.isWhitespace) = true := h
      rw [dropTrailingWs_cons, if_neg]
      · rfl
      · have : c.isWhitespace = false := by simpa using hc
        rw [this]
        simp
    | cons c2 rest2 =>
      have h2 : trailingWsFree (c2 :: rest2) = true := by
        rw [trailingWsFree_eq] at h ⊢
        rw [List.getLast?_cons_cons] at h
        exact h
      rw [dropTrailingWs_cons, ih h2, if_neg]
      simp

/-! ### Facts about the 1001-character fixture -/

theorem noDoubleWs_replicate_a (n : Nat) :
    noDoubleWs (List.replicate n 'a' ++ [' ', 'b']) = true := by
  induction n with
  | zero => rfl
  | succ n ih =>
    rw [List.replicate_succ, List.cons_append]
    exact noDoubleWs_cons_of_not_ws 'a' _ (by decide) ih

theorem wsOnlySpace_replicate_a (n : Nat) :
    ∀ c ∈ List.replicate n 'a' ++ [' ', 'b'], c.isWhitespace = true → c = ' ' := by
  intro c hc hw
  rcases List.mem_append.mp hc with h1 | h2
  · have ha := List.eq_of_mem_replicate h1
    rw [ha] at hw
    exact absurd hw (by decide)
  · rcases List.mem_cons.mp h2 with h3 | h4
    · exact h3
    · have hb : c = 'b' := by simpa using h4
      rw [hb] at hw
      exact absurd hw (by decide)

theorem leadingWsFree_replicate_a (n : Nat) :
    leadingWsFree (List.replicate (n + 1) 'a' ++ [' ', 'b']) = true := by
  rw [List.replicate_succ, List.cons_append]
  rfl

theorem trailingWsFree_append_space_b (l : List Char) :
    trailingWsFree (l ++ [' ', 'b']) = true := by
  rw [trailingWsFree_eq, List.getLast?_append]
  rfl

theorem extractContent_data (body : String) :
    (extractContent body).data =
      (dropTrailingWs ((collapseWsAux body.data).dropWhile Char.isWhitespace)).take 1000 :=
  rfl

theorem longBody_data : longBody.data = List.replicate 999 'a' ++ [' ', 'b'] := rfl

theorem extractContent_longBody :
    (extractContent longBody).data = List.replicate 999 'a' ++ [' '] := by
  rw [extractContent_data, longBody_data]
  rw [collapseWsAux_id _ (noDoubleWs_replicate_a 999) (wsOnlySpace_replicate_a 999)]
  rw [dropWhileWs_id _ (leadingWsFree_replicate_a 998)]
  rw [dropTrailingWs_id _ (trailingWsFree_append_space_b (List.replicate 999 'a'))]
  rw [List.take_append_eq_append_take]
  rw [List.take_of_length_le (by rw [List.length_replicate]; omega)]
  rw [List.length_replicate]
  congr 1

theorem trailingWsFree_extractContent_longBody :
    trailingWsFree (extractContent longBody).data = false := by
  rw [extractContent_longBody, trailingWsFree_eq, List.getLast?_append]
  rfl

/-! ### The concrete long-body pass -/

theorem scrapeSectionRecursively_none_fst (fetch : FetchFn) (sec : SeedSection)
    (kb : KB) (h : fetch sec.url = none) :
    (scrapeSectionRecursively fetch sec 0 1 kb).1 = kb := by
  show (scrapeGo fetch 2 sec 0 kb).1 = kb
  rw [show (2 : Nat) = 1 + 1 from rfl, scrapeGo_succ, h]

theorem scrapeList_fst_of_fetch_fail (fetch : FetchFn) :
    ∀ (sections : List SeedSection) (kb : KB),
      (∀ sec ∈ sections, fetch sec.url = none) →
      (scrapeList (fun sec kbx => scrapeSectionRecursively fetch sec 0 1 kbx)
        sections kb).1 = kb := by
  intro sections
  induction sections with
  | nil => intro kb _; rfl
  | cons s rest ih =>
    intro kb h
    calc (scrapeList (fun sec kbx => scrapeSectionRecursively fetch sec 0 1 kbx)
          (s :: rest) kb).1
        = (scrapeList (fun sec kbx => scrapeSectionRecursively fetch sec 0 1 kbx)
            rest (scrapeSectionRecursively fetch s 0 1 kb).1).1 := rfl
      _ = (scrapeSectionRecursively fetch s 0 1 kb).1 :=
          ih _ (fun x hx => h x (List.mem_cons_of_mem s hx))
      _ = kb := scrapeSectionRecursively_none_fst fetch s kb (h s (List.mem_cons_self s rest))

theorem kbGet_pass_fetchLong :
    kbGet (scrapeEpturaKnowledge fetchLong []).1 condecoUrl =
      some (mkDoc secCondeco pageLong) := by
  have h0 : (scrapeEpturaKnowledge fetchLong []).1 =
      (scrapeList (fun sec kbx => scrapeSectionRecursively fetchLong sec 0 1 kbx)
        (KNOWLEDGE_SECTIONS.drop 1)
        (scrapeSectionRecursively fetchLong secCondeco 0 1 []).1).1 := rfl
  rw [h0]
  rw [scrapeList_fst_of_fetch_fail fetchLong (KNOWLEDGE_SECTIONS.drop 1) _ (by decide)]
  exact scrapeGo_root_stored fetchLong secCondeco pageLong rfl 1 0 []

/-! ### Round-trip helpers -/

theorem kbSet_mem_self (kb : KB) (u : String) (d : Doc) : (u, d) ∈ kbSet kb u d := by
  rw [kbSet]
  by_cases h : kbHas kb u
  · rw [if_pos h]
    rw [kbHas] at h
    obtain ⟨e, he, heu⟩ := List.any_eq_true.mp h
    apply List.mem_map.mpr
    exact ⟨e, he, by rw [if_pos heu]⟩
  · rw [if_neg h]
    exact List.mem_append_right _ (List.mem_singleton_self _)

theorem kbSet_key_eq (kb : KB) (u : String) (d : Doc) (p : String × Doc)
    (hp : p ∈ kbSet kb u d) (hpu : p.1 = u) : p = (u, d) := by
  rw [kbSet] at hp
  by_cases h : kbHas kb u
  · rw [if_pos h] at hp
    obtain ⟨e, he, hef⟩ := List.mem_map.mp hp
    by_cases heu : (e.1 == u) = true
    · rw [if_pos heu] at hef
      exact hef.symm
    · rw [if_neg heu] at hef
      rw [hef] at heu
      exact absurd (by rw [hpu]; simp) heu
  · rw [if_neg h] at hp
    rcases List.mem_append.mp hp with h1 | h2
    · exfalso
      exact h (List.any_eq_true.mpr ⟨p, h1, by rw [hpu]; simp⟩)
    · simpa using h2

theorem filter_singleton_of_unique (P : Doc → Bool) (U : String) (d : Doc) :
    ∀ l : List (String × Doc),
      (l.map Prod.fst).Nodup → (U, d) ∈ l → P d = true →
      (∀ p ∈ l, p.1 ≠ U → P p.2 = false) →
      (∀ p ∈ l, p.1 = U → p = (U, d)) →
      (l.map Prod.snd).filter P = [d] := by
  intro l
  induction l with
  | nil => intro _ hmem; exact absurd hmem (by simp)
  | cons e rest ih =>
    intro hnd hmem hPd hothers hkey
    rw [List.map_cons, List.nodup_cons] at hnd
    rcases List.mem_cons.mp hmem with he | hrest
    · rw [← he] at hnd ⊢
      rw [List.map_cons, List.filter_cons_of_pos hPd]
      have hnil : (rest.map Prod.snd).filter P = [] := by
        rw [List.filter_eq_nil_iff]
        intro a ha
        obtain ⟨p, hp, hpa⟩ := List.mem_map.mp ha
        by_cases hpU : p.1 = U
        · exfalso
          apply hnd.1
          apply List.mem_map.mpr
          exact ⟨p, hp, hpU⟩
        · rw [← hpa]
          rw [hothers p (List.mem_cons_of_mem _ hp) hpU]
          simp
      rw [hnil]
    · have heU : e.1 ≠ U := by
        intro hx
        have heq := hkey e (List.mem_cons_self e rest) hx
        apply hnd.1
        rw [heq]
        apply List.mem_map.mpr
        exact ⟨(U, d), hrest, rfl⟩
      rw [List.map_cons, List.filter_cons_of_neg
        (by rw [hothers e (List.mem_cons_self e rest) heU]; simp)]
      exact ih hnd.2 hrest hPd
        (fun p hp hne => hothers p (List.mem_cons_of_mem e hp) hne)
        (fun p hp hpU => hkey p (List.mem_cons_of_mem e hp) hpU)

theorem filter_matchesQuery_empty (l : List Doc) :
    l.filter (matchesQuery (jsToLower "")) = l := by
  induction l with
  | nil => rfl
  | cons d rest ih =>
    rw [List.filter_cons_of_pos (matchesQuery_empty_query d), ih]

/-! ### Claim theorems -/

/-- **C1** (counterexample).  The claim "no URL is fetched more than once
per pass" is false: on a pass whose Condeco seed page carries the same
same-domain link twice, the link target is fetched twice — link
collection filters against the store once, before any link of the page
is visited, and the recursive call re-fetches unconditionally.  The
fetch log of the pass contains a duplicated URL. -/
theorem c1_counterexample :
    ¬ ((scrapeEpturaKnowledge fetchDup []).2.map Prod.fst).Nodup := by decide

/-- **C1** (amended).  What does hold: a discovered link whose URL is
already a key of the Document Store at the moment of link collection is
not collected (and hence not fetched from that page), and only links
into the crawl domain are collected.  Per-pass "visited" deduplication
beyond this store check does not exist. -/
theorem c1_link_collection_dedup (kb : KB) (page : Page) (l : SeedSection)
    (h : l ∈ collectLinks kb page) :
    kbHas kb l.url = false ∧ jsStartsWith l.url crawlDomain = true :=
  collectLinks_not_in_store kb page l h

/-- Witness for `c1_link_collection_dedup` at a concrete page. -/
theorem c1_link_collection_dedup_witness :
    (⟨"Teams", linkUrlX⟩ : SeedSection) ∈ collectLinks [] pageMixedAnchors ∧
      (kbHas ([] : KB) linkUrlX = false ∧ jsStartsWith linkUrlX crawlDomain = true) :=
  ⟨by decide, c1_link_collection_dedup [] pageMixedAnchors ⟨"Teams", linkUrlX⟩ (by decide)⟩

/-- **C2** (confirmed).  A URL on which the fetch oracle fails during a
pass keeps exactly its prior Document Store entry after the pass: the
`catch` in `scrapeSectionRecursively` abandons the subtree without any
write, and no other part of the pass deletes entries. -/
theorem c2_failure_preserves_store (fetch : FetchFn) (kb : KB) (u : String) (d : Doc)
    (hu : fetch u = none) (hd : kbGet kb u = some d) :
    kbGet (scrapeEpturaKnowledge fetch kb).1 u = some d := by
  rw [pass_get_of_fetch_none fetch u hu kb]
  exact hd

/-- Witness for `c2_failure_preserves_store`: every fetch fails, the
pre-existing Condeco entry survives the pass unchanged. -/
theorem c2_failure_preserves_store_witness :
    kbGet (scrapeEpturaKnowledge fetchFailAll [(condecoUrl, docA)]).1 condecoUrl =
      some docA :=
  c2_failure_preserves_store fetchFailAll [(condecoUrl, docA)] condecoUrl docA rfl
    (by decide)

/-- **C3** (confirmed).  Every fetch attempted during a full pass is at
depth 0 (a seed) or depth 1 (a link discovered on a seed page); with
`maxDepth = 1`, the guard `depth > maxDepth` prunes every deeper call
before its fetch, so links discovered at the bound are not themselves
fetched. -/
theorem c3_depth_bound (fetch : FetchFn) (kb : KB) (e : FetchEvent)
    (he : e ∈ (scrapeEpturaKnowledge fetch kb).2) : e.2 ≤ 1 :=
  pass_event_depth fetch kb e he

/-- Witness for `c3_depth_bound` at a concrete pass. -/
theorem c3_depth_bound_witness :
    ((condecoUrl, 0) ∈ (scrapeEpturaKnowledge fetchFailAll []).2) ∧
      ((condecoUrl, 0) : FetchEvent).2 ≤ 1 :=
  ⟨by decide, c3_depth_bound fetchFailAll [] (condecoUrl, 0) (by decide)⟩

/-- **C4** (counterexample).  "`search(q, n)` returns at most `n`
results for every limit `n`" fails at `n = 0`: the loop checks the limit
only after the conditional push, so a store whose first Document matches
yields one result, not zero. -/
theorem c4_counterexample :
    ¬ (((searchKnowledgeBase [("u1", docMatchB)] "b" 0).length : Int) ≤ 0) := by decide

/-- **C4** (amended).  For every limit `n >= 1`, `search(q, n)` is
exactly the first `n` Documents (in Document Store insertion order)
whose lowercased title or content contains the lowercased query —
first-match-wins, no ranking — mapped to result records; in particular
at most `n` results are returned, and the empty-string query matches
every Document under the substring rule. -/
theorem c4_search_characterization (kb : KB) (q : String) (n : Int) (d : Doc)
    (h : 1 ≤ n) :
    searchKnowledgeBase kb q n =
      (((kb.map Prod.snd).filter (matchesQuery (jsToLower q))).take n.toNat).map
        mkSearchResult ∧
      (searchKnowledgeBase kb q n).length ≤ n.toNat ∧
      matchesQuery (jsToLower "") d = true := by
  refine ⟨searchKnowledgeBase_eq kb q n h, ?_, matchesQuery_empty_query d⟩
  rw [searchKnowledgeBase_eq kb q n h, List.length_map, List.length_take]
  exact inf_le_left

/-- Witness for `c4_search_characterization` at a concrete store. -/
theorem c4_search_characterization_witness :
    searchKnowledgeBase [("u1", docMatchB)] "b" 2 =
      List.map mkSearchResult (((([("u1", docMatchB)] : KB).map Prod.snd).filter
        (matchesQuery (jsToLower "b"))).take (2 : Int).toNat) ∧
      (searchKnowledgeBase [("u1", docMatchB)] "b" 2).length ≤ (2 : Int).toNat ∧
      matchesQuery (jsToLower "") docMatchB = true :=
  c4_search_characterization [("u1", docMatchB)] "b" 2 docMatchB (by decide)

/-- **C5** (counterexample).  "Search with an empty query returns the
empty sequence" is false: the empty string is a substring of every
title, so over a nonempty store the empty query returns results. -/
theorem c5_counterexample :
    searchKnowledgeBase [("u1", docMatchB)] "" 5 ≠ [] := by decide

/-- **C5** (amended).  Search over an empty Document Store returns the
empty sequence for every limit, and neither case raises an error (both
are total computations); but the empty query over a store matches every
Document — for `n >= 1` it returns the first `min(n, size)` stored
Documents rather than the empty sequence. -/
theorem c5_empty_cases (q : String) (kb : KB) (n m : Int) (hn : 1 ≤ n) :
    searchKnowledgeBase [] q m = [] ∧
      searchKnowledgeBase kb "" n =
        ((kb.map Prod.snd).take n.toNat).map mkSearchResult := by
  refine ⟨rfl, ?_⟩
  rw [searchKnowledgeBase_eq kb "" n hn, filter_matchesQuery_empty]

/-- Witness for `c5_empty_cases` at a concrete store. -/
theorem c5_empty_cases_witness :
    searchKnowledgeBase [] "x" 7 = [] ∧
      searchKnowledgeBase [("u1", docMatchB)] "" 2 =
        ((([("u1", docMatchB)] : KB).map Prod.snd).take (2 : Int).toNat).map
          mkSearchResult :=
  c5_empty_cases "x" [("u1", docMatchB)] 2 7 (by decide)

/-- **C6** (counterexample).  "Content has no trailing whitespace" is
false: truncation to 1000 characters happens after trimming, so a body
whose 1000th character (after whitespace collapsing) is a space yields a
stored Document whose content ends in a space.  With a 999-`a` + space +
`b` body, the stored Condeco Document's content ends in whitespace. -/
theorem c6_counterexample :
    (kbGet (scrapeEpturaKnowledge fetchLong []).1 condecoUrl).map
      (fun d => trailingWsFree d.content.data) = some false := by
  rw [kbGet_pass_fetchLong]
  exact congrArg some trailingWsFree_extractContent_longBody

/-- **C6** (amended).  Every Document present in the store after a pass
either was already there with the same value before the pass, or has
content of length at most 1000 with no run of two or more consecutive
whitespace characters and no leading whitespace; a single trailing space
is possible exactly when the 1000-character truncation cuts right after
a collapsed space. -/
theorem c6_content_normalized (fetch : FetchFn) (kb : KB) (u : String) (dv : Doc)
    (h : kbGet (scrapeEpturaKnowledge fetch kb).1 u = some dv) :
    kbGet kb u = some dv ∨ contentOk dv.content :=
  pass_get_provenance fetch kb u dv h

/-- Witness for `c6_content_normalized` at a concrete pass. -/
theorem c6_content_normalized_witness :
    kbGet ([] : KB) condecoUrl = some docShort ∨ contentOk docShort.content :=
  c6_content_normalized fetchShort [] condecoUrl docShort (by decide)

/-- **C7** (confirmed).  Round-trip of store then search: writing a
Document `d` under its own URL `U` into a store with distinct keys, then
searching (with limit at least 1) for a string that occurs
case-insensitively in `d`'s title and matches no other stored entry,
returns exactly one result, whose `url` is `U`. -/
theorem c7_roundtrip (kb : KB) (U s : String) (d : Doc) (n : Int)
    (hkeys : ((kbSet kb U d).map Prod.fst).Nodup)
    (hurl : d.url = U)
    (htitle : jsIncludes (jsToLower d.title) (jsToLower s) = true)
    (hothers : ∀ p ∈ kbSet kb U d, p.1 ≠ U → matchesQuery (jsToLower s) p.2 = false)
    (hn : 1 ≤ n) :
    searchKnowledgeBase (kbSet kb U d) s n = [mkSearchResult d] ∧
      (mkSearchResult d).url = U := by
  constructor
  · have hm : matchesQuery (jsToLower s) d = true := by
      show (jsIncludes (jsToLower d.title) (jsToLower s) ||
        jsIncludes (jsToLower d.content) (jsToLower s)) = true
      rw [htitle]
      rfl
    have hfil : ((kbSet kb U d).map Prod.snd).filter (matchesQuery (jsToLower s)) =
        [d] :=
      filter_singleton_of_unique _ U d (kbSet kb U d) hkeys (kbSet_mem_self kb U d) hm
        hothers (fun p hp hpU => kbSet_key_eq kb U d p hp hpU)
    rw [searchKnowledgeBase_eq (kbSet kb U d) s n hn, hfil]
    rw [List.take_of_length_le (by simp; omega)]
    rfl
  · exact hurl

/-- Witness for `c7_roundtrip` at a concrete store. -/
theorem c7_roundtrip_witness :
    searchKnowledgeBase (kbSet [] "https://knowledge.eptura.com/u" docU)
        "uniquetitle" 5 = [mkSearchResult docU] ∧
      (mkSearchResult docU).url = "https://knowledge.eptura.com/u" :=
  c7_roundtrip [] "https://knowledge.eptura.com/u" "uniquetitle" docU 5 (by decide) rfl
    (by decide) (by decide) (by decide)

/-- **C8** (confirmed).  On a successful fetch within the depth bound,
the stored Document's title is the extracted `<title>` text when that
text is nonempty, and the caller-supplied fallback name (the seed or
link name) when it is empty. -/
theorem c8_title_extraction (fetch : FetchFn) (sec : SeedSection) (page : Page)
    (kb : KB) (depth maxDepth : Nat) (hfs : fetch sec.url = some page)
    (hd : depth ≤ maxDepth) :
    kbGet (scrapeSectionRecursively fetch sec depth maxDepth kb).1 sec.url =
      some (mkDoc sec page) ∧
      (mkDoc sec page).title =
        (if page.titleText = "" then sec.name else page.titleText) := by
  constructor
  · have hg : maxDepth + 1 - depth = (maxDepth - depth) + 1 := by omega
    rw [scrapeSectionRecursively, hg]
    exact scrapeGo_root_stored fetch sec page hfs (maxDepth - depth) depth kb
  · rfl

/-- Witness for `c8_title_extraction` at a concrete fetch. -/
theorem c8_title_extraction_witness :
    kbGet (scrapeSectionRecursively fetchShort secCondeco 0 1 []).1 secCondeco.url =
      some (mkDoc secCondeco pageShort) ∧
      (mkDoc secCondeco pageShort).title =
        (if pageShort.titleText = "" then secCondeco.name else pageShort.titleText) :=
  c8_title_extraction fetchShort secCondeco pageShort [] 0 1 (by decide) (by decide)

/-- **C9** (confirmed).  The implicit behavior: (a) every pass fetches
every seed URL at depth 0, store membership notwithstanding; (b) a
discovered link whose URL is already a key of the persistent store is
never collected; (c) a URL present in the store at pass start is only
ever fetched during the pass as a seed URL; (d) the store entry of a
non-seed URL present at pass start is unchanged by the pass — non-seed
Documents are never refreshed. -/
theorem c9_persistent_dedup :
    (∀ (fetch : FetchFn) (kb : KB), ∀ sec ∈ KNOWLEDGE_SECTIONS,
        (sec.url, 0) ∈ (scrapeEpturaKnowledge fetch kb).2) ∧
      (∀ (kb : KB) (page : Page), ∀ l ∈ collectLinks kb page,
        kbHas kb l.url = false) ∧
      (∀ (fetch : FetchFn) (kb : KB) (u : String) (e : FetchEvent),
        kbHas kb u = true → e ∈ (scrapeEpturaKnowledge fetch kb).2 → e.1 = u →
        ∃ sec ∈ KNOWLEDGE_SECTIONS, u = sec.url) ∧
      (∀ (fetch : FetchFn) (kb : KB) (u : String), kbHas kb u = true →
        (∀ sec ∈ KNOWLEDGE_SECTIONS, sec.url ≠ u) →
        kbGet (scrapeEpturaKnowledge fetch kb).1 u = kbGet kb u) :=
  ⟨fun fetch kb sec hsec => pass_seed_event fetch kb sec hsec,
   fun kb page l hl => (collectLinks_not_in_store kb page l hl).1,
   fun fetch kb u e h he heu => pass_event_of_has fetch kb u e h he heu,
   fun fetch kb u h hns => pass_get_preserve_nonseed fetch kb u h hns⟩

/-- Witness for `c9_persistent_dedup` at concrete inputs. -/
theorem c9_persistent_dedup_witness :
    ((secCondeco.url, 0) ∈ (scrapeEpturaKnowledge fetchFailAll []).2) ∧
      kbHas ([] : KB) (⟨"Teams", linkUrlX⟩ : SeedSection).url = false ∧
      (∃ sec ∈ KNOWLEDGE_SECTIONS, condecoUrl = sec.url) ∧
      kbGet (scrapeEpturaKnowledge fetchFailAll [(linkUrlX, docA)]).1 linkUrlX =
        kbGet [(linkUrlX, docA)] linkUrlX := by
  obtain ⟨h1, h2, h3, h4⟩ := c9_persistent_dedup
  exact ⟨h1 fetchFailAll [] secCondeco (by decide),
    h2 [] pageMixedAnchors ⟨"Teams", linkUrlX⟩ (by decide),
    h3 fetchFailAll [(condecoUrl, docA)] condecoUrl (condecoUrl, 0) (by decide)
      (by decide) rfl,
    h4 fetchFailAll [(linkUrlX, docA)] linkUrlX (by decide) (by decide)⟩

/-- **C10** (counterexample).  "For `n <= 0`, if at least one stored
Document matches, exactly one result is returned" is false: the break
check runs at the end of every iteration, so with `n <= 0` only the
first entry is ever examined — here the second entry matches but the
result is empty. -/
theorem c10_counterexample :
    searchKnowledgeBase [("u1", docNoMatch), ("u2", docYesMatch)] "findme" 0 = [] ∧
      matchesQuery (jsToLower "findme") docYesMatch = true := by decide

/-- **C10** (amended).  For every limit `n <= 0` the loop stops after
the first iteration: it returns exactly one result if the *first* stored
Document matches the query, and the empty sequence otherwise (the
at-most-limit bound holds only for `n >= 1`). -/
theorem c10_nonpos_limit (kb : KB) (q : String) (n : Int) (h : n ≤ 0) :
    searchKnowledgeBase kb q n = firstEntryResult kb q :=
  searchKnowledgeBase_nonpos kb q n h

/-- Witness for `c10_nonpos_limit` at a concrete store. -/
theorem c10_nonpos_limit_witness :
    searchKnowledgeBase [("u1", docNoMatch), ("u2", docYesMatch)] "findme" 0 =
      firstEntryResult [("u1", docNoMatch), ("u2", docYesMatch)] "findme" :=
  c10_nonpos_limit [("u1", docNoMatch), ("u2", docYesMatch)] "findme" 0 (by decide)

end Eptura
